import Mathlib

/-!
# Verification of the excel-merger row-merging pipeline

A shallow embedding of the core merge algorithm of the repository
(`merger.py` and its duplicate in `streamlit_app.py`): currency
normalization (`clean_currency`), per-group column reconciliation
(`merge_group`), the `groupby("School No")` pipeline of `process_file`
and `process_excel_data`, and the 2-decimal rounding pass.

Tables are modelled as a header (list of column names) plus rows of
cells, a cell being `Option String` (`none` models a null/absent cell,
as produced by `pd.read_excel(..., dtype=str)`).  Numbers are modelled
exactly as rationals.  Python string ordering is code-point
lexicographic; `strLeb` below implements it directly so that all
definitions are kernel-computable.
-/

/-- Left-strip: drop leading whitespace characters (Python `str.strip`, one side). -/
def dropWs (l : List Char) : List Char := l.dropWhile Char.isWhitespace

/-- Both-ends strip on character lists, modelling Python `str.strip()`. -/
def stripL (l : List Char) : List Char :=
  ((dropWs l).reverse.dropWhile Char.isWhitespace).reverse

/-- Python `str.strip()` on strings. -/
def pyStrip (s : String) : String := String.mk (stripL s.data)

/-- The character filter of `re.sub(r'[^\d.]', '', value_str)`: keep only
ASCII digits and the decimal point. -/
def stripNum (s : String) : String :=
  String.mk (s.data.filter (fun c => c.isDigit || c == '.'))

/-- Value of a string of decimal digits (most significant first). -/
def natValL (l : List Char) : ℕ := l.foldl (fun a c => 10 * a + (c.toNat - 48)) 0

/-- Python `float()` restricted to the strings `clean_currency` feeds it
(the stripped string contains only digits and dots): digits with at most
one dot and at least one digit parse to the exact decimal value; anything
else (empty, lone dot, several dots) fails. -/
def parseFloatQ (s : String) : Option ℚ :=
  match s.data.dropWhile (fun c => c ≠ '.') with
  | [] =>
    if s.data.takeWhile (fun c => c ≠ '.') ≠ [] ∧
        (s.data.takeWhile (fun c => c ≠ '.')).all Char.isDigit then
      some (natValL (s.data.takeWhile (fun c => c ≠ '.')))
    else none
  | _ :: b =>
    if (s.data.takeWhile (fun c => c ≠ '.') ≠ [] ∨ b ≠ []) ∧
        (s.data.takeWhile (fun c => c ≠ '.')).all Char.isDigit ∧ b.all Char.isDigit then
      some ((natValL (s.data.takeWhile (fun c => c ≠ '.')) : ℚ) + (natValL b : ℚ) / 10 ^ b.length)
    else none

/-- `", ".join` on character lists. -/
def joinSepL : List (List Char) → List Char
  | [] => []
  | [x] => x
  | x :: xs => x ++ ',' :: ' ' :: joinSepL xs

/-- `", ".join` on strings. -/
def joinSep (l : List String) : String := String.mk (joinSepL (l.map String.data))

/-- Code-point lexicographic comparison of character lists, the ordering
Python's `sorted` uses on strings. -/
def strLeb : List Char → List Char → Bool
  | [], _ => true
  | _ :: _, [] => false
  | a :: as, b :: bs =>
    if a.toNat < b.toNat then true
    else if b.toNat < a.toNat then false
    else strLeb as bs

/-- Python string order as a proposition. -/
def strLe (a b : String) : Prop := strLeb a.data b.data = true

instance : DecidableRel strLe := fun _ _ => inferInstanceAs (Decidable (_ = true))

/-- `sorted` on a list of strings (ascending, Python default order). -/
def sortStr (l : List String) : List String := List.insertionSort strLe l

/-- Deduplication keeping the first occurrence of each element, the order
`pandas.unique` and first-seen iteration produce. -/
def firstDedup {α : Type} [DecidableEq α] : List α → List α
  | [] => []
  | x :: xs => x :: (firstDedup xs).filter (fun y => y ≠ x)

/-- Round half to even on rationals (numpy's rounding rule). -/
def roundHalfEven (q : ℚ) : ℤ :=
  if q - ⌊q⌋ < 1/2 then ⌊q⌋
  else if (1:ℚ)/2 < q - ⌊q⌋ then ⌊q⌋ + 1
  else if ⌊q⌋ % 2 = 0 then ⌊q⌋ else ⌊q⌋ + 1

/-- `round(x, 2)`: round to 2 decimal places. -/
def round2 (q : ℚ) : ℚ := (roundHalfEven (q * 100) : ℚ) / 100

/-- A merged cell: text columns produce strings, aggregation columns
numbers, and the (in the pipeline unused) verbatim key branch copies the
raw cell. -/
inductive Value : Type
  | vstr (s : String) : Value
  | vnum (q : ℚ) : Value
  | vraw (o : Option String) : Value
deriving DecidableEq

/-- An input table: header and rows of nullable string cells, as read by
`pd.read_excel(path, dtype=str)`. -/
structure Table : Type where
  cols : List String
  rows : List (List (Option String))
deriving DecidableEq

/-- Result of `process_file`: the merged table (key of each merged row
kept separate, remaining cells as `(column, value)` pairs in column
order) and the two returned row counts. -/
structure MergedOut : Type where
  cols : List String
  rows : List (String × List (String × Value))
  nOrig : ℕ
  nMerged : ℕ
deriving DecidableEq

/-- Kind of a Python exception escaping `process_file`. -/
inductive ErrKind : Type
  | valueError : ErrKind
  | otherError : ErrKind
deriving DecidableEq

/-- A raised exception: its kind and its message. -/
structure ExcErr : Type where
  kind : ErrKind
  msg : String
deriving DecidableEq

/-- Equality of `Except` results is decidable (needed to evaluate pipeline
runs on concrete tables). -/
def exceptDecEq {ε α : Type} [DecidableEq ε] [DecidableEq α] :
    DecidableEq (Except ε α)
  | .error e, .error f =>
    if h : e = f then isTrue (by rw [h]) else isFalse (fun c => h (by injection c))
  | .error _, .ok _ => isFalse (fun c => Except.noConfusion c)
  | .ok _, .error _ => isFalse (fun c => Except.noConfusion c)
  | .ok a, .ok b =>
    if h : a = b then isTrue (by rw [h]) else isFalse (fun c => h (by injection c))

instance {ε α : Type} [DecidableEq ε] [DecidableEq α] : DecidableEq (Except ε α) :=
  exceptDecEq

namespace Merger

/-- The fixed aggregation column set of `merger.py`. -/
def SUM_COLUMNS : List String :=
  ["Total Order Value (Exclusive GST)",
   "Total Order Value (Inclusive GST)",
   "ASSET Revenue",
   "ASSETStudents",
   "CARES Revenue",
   "CARESStudents",
   "Mindspark Revenue",
   "MindsparkStudents"]

/-- `clean_currency` of `merger.py`: null becomes `0.0`; otherwise strip
every character that is not a digit or a dot and parse, any failure
(empty remainder or unparsable remainder) yielding `0.0`. -/
def clean_currency (v : Option String) : ℚ :=
  match v with
  | none => 0
  | some s =>
    let t := stripNum s
    if t = "" then 0 else (parseFloatQ t).getD 0

/-- The per-column policy of `merge_group`: aggregation columns sum the
cleaned values over all cells of the group's column; the key column
copies the first cell; any other column reduces its distinct non-null
values (`dropna().astype(str).unique()`) to a single trimmed value, or to
the sorted deduplicated `", "`-join of the trimmed non-empty ones. -/
def mergeCol (col : String) (cells : List (Option String)) : Value :=
  if col ∈ SUM_COLUMNS then
    .vnum ((cells.map clean_currency).sum)
  else if col = "School No" then
    .vraw (cells.getD 0 none)
  else
    let values := firstDedup (cells.filterMap id)
    if values.length = 1 then
      .vstr (pyStrip (values.getD 0 ""))
    else
      .vstr (joinSep (sortStr (firstDedup (((values.map pyStrip).filter (fun v => v ≠ ""))))))

/-- `merge_group`: one merged `(column, value)` pair per column of the
group's subframe.  Columns are given with their cell index in the full
row (`include_groups=False` passes the subframe without the key column,
so the pipeline below feeds the non-key columns only). -/
def merge_group (cols : List (ℕ × String)) (rows : List (List (Option String))) :
    List (String × Value) :=
  cols.map (fun p => (p.2, mergeCol p.2 (rows.map (fun r => r.getD p.1 none))))

/-- Index of the grouping-key column in the header. -/
def keyIdx (t : Table) : ℕ := t.cols.findIdx (fun c => c == "School No")

/-- The grouping-key cell of every row. -/
def keyCells (t : Table) : List (Option String) :=
  t.rows.map (fun r => r.getD (keyIdx t) none)

/-- The non-null grouping-key values, in row order, with multiplicity. -/
def nonNullKeys (t : Table) : List String :=
  t.rows.filterMap (fun r => r.getD (keyIdx t) none)

/-- The distinct non-null key values in ascending order: the group order
`df.groupby("School No")` (whose default is `sort=True`, and which drops
null keys) produces. -/
def sortedKeys (t : Table) : List String := sortStr (firstDedup (nonNullKeys t))

/-- The rows of the group of key `k`, in input order. -/
def groupRows (t : Table) (k : String) : List (List (Option String)) :=
  t.rows.filter (fun r => r.getD (keyIdx t) none == some k)

/-- The non-key columns, with their original cell index
(`include_groups=False` excludes the grouping column). -/
def ocolsE (t : Table) : List (ℕ × String) :=
  t.cols.enum.filter (fun p => p.2 ≠ "School No")

/-- The merged (pre-rounding) row of the group of key `k`. -/
def mergedRowFor (t : Table) (k : String) : List (String × Value) :=
  merge_group (ocolsE t) (groupRows t k)

/-- The result of `groupby("School No", as_index=False).apply(merge_group,
include_groups=False)`: one row per distinct non-null key, keys in sorted
order, the key value re-inserted by pandas as its own column. -/
def rawRows (t : Table) : List (String × List (String × Value)) :=
  (sortedKeys t).map (fun k => (k, mergedRowFor t k))

/-- One step of the post-processing pass
`pd.to_numeric(merged_df[col], errors='coerce').fillna(0).round(2)`:
on the numeric values the aggregation columns hold at this point it
rounds to 2 decimals. -/
def roundVal : Value → Value
  | .vnum q => .vnum (round2 q)
  | v => v

/-- The rounding pass applied to one merged row: every aggregation column
present is rounded. -/
def roundPassRow (r : List (String × Value)) : List (String × Value) :=
  r.map (fun p => if p.1 ∈ SUM_COLUMNS then (p.1, roundVal p.2) else p)

/-- The final merged rows of `process_file`. -/
def outRows (t : Table) : List (String × List (String × Value)) :=
  (rawRows t).map (fun r => (r.1, roundPassRow r.2))

/-- The header of the output table: the key column (re-inserted first by
pandas) followed by the remaining columns in input order. -/
def outCols (t : Table) : List String :=
  "School No" :: (ocolsE t).map (fun p => p.2)

/-- The body of `process_file` after reading succeeded: validate that the
key column exists (raising `ValueError` otherwise, before any grouping),
then group, merge, round, and return the table with both row counts. -/
def processBody (t : Table) : Except ExcErr MergedOut :=
  if "School No" ∈ t.cols then
    .ok ⟨outCols t, outRows t, t.rows.length, (outRows t).length⟩
  else
    .error ⟨.valueError, "Excel file must contain a 'School No' column"⟩

/-- `process_file` from the result of `pd.read_excel` (which may itself
fail): the whole body runs inside `try/except Exception`, and any escaping
exception is re-raised as a generic `Exception` whose message carries the
`"Error processing file: "` prefix. -/
def processFileFrom (readResult : Except String Table) : Except ExcErr MergedOut :=
  match (match readResult with
         | .error m => .error (ExcErr.mk .otherError m)
         | .ok t => processBody t : Except ExcErr MergedOut) with
  | .ok o => .ok o
  | .error e => .error ⟨.otherError, "Error processing file: " ++ e.msg⟩

/-- `process_file` on a successfully decoded table. -/
def processFile (t : Table) : Except ExcErr MergedOut := processFileFrom (.ok t)

/-- The merged value of column `col` in the output row of key `k`. -/
def mergedValAt (t : Table) (k col : String) : Option Value :=
  ((outRows t).find? (fun r => r.1 == k)).bind (fun r => List.lookup col r.2)

/-- The cells of column `col` (located by its first occurrence in the
header) restricted to the group of key `k`. -/
def groupCells (t : Table) (k col : String) : List (Option String) :=
  (groupRows t k).map (fun r => r.getD (t.cols.findIdx (fun c => c == col)) none)

end Merger

namespace StreamlitApp

/-- The fixed aggregation column set of `streamlit_app.py` (duplicated
verbatim from `merger.py`). -/
def SUM_COLUMNS : List String :=
  ["Total Order Value (Exclusive GST)",
   "Total Order Value (Inclusive GST)",
   "ASSET Revenue",
   "ASSETStudents",
   "CARES Revenue",
   "CARESStudents",
   "Mindspark Revenue",
   "MindsparkStudents"]

/-- `clean_currency` of `streamlit_app.py` (duplicated verbatim from
`merger.py`; the `@st.cache_data` decorator only memoizes). -/
def clean_currency (v : Option String) : ℚ :=
  match v with
  | none => 0
  | some s =>
    let t := stripNum s
    if t = "" then 0 else (parseFloatQ t).getD 0

/-- The per-column policy of `merge_group` in `streamlit_app.py`. -/
def mergeCol (col : String) (cells : List (Option String)) : Value :=
  if col ∈ SUM_COLUMNS then
    .vnum ((cells.map clean_currency).sum)
  else if col = "School No" then
    .vraw (cells.getD 0 none)
  else
    let values := firstDedup (cells.filterMap id)
    if values.length = 1 then
      .vstr (pyStrip (values.getD 0 ""))
    else
      .vstr (joinSep (sortStr (firstDedup (((values.map pyStrip).filter (fun v => v ≠ ""))))))

/-- `merge_group` of `streamlit_app.py`. -/
def merge_group (cols : List (ℕ × String)) (rows : List (List (Option String))) :
    List (String × Value) :=
  cols.map (fun p => (p.2, mergeCol p.2 (rows.map (fun r => r.getD p.1 none))))

/-- Index of the grouping-key column. -/
def keyIdx (t : Table) : ℕ := t.cols.findIdx (fun c => c == "School No")

/-- Non-null grouping-key values in row order. -/
def nonNullKeys (t : Table) : List String :=
  t.rows.filterMap (fun r => r.getD (keyIdx t) none)

/-- Sorted distinct non-null key values (pandas group order). -/
def sortedKeys (t : Table) : List String := sortStr (firstDedup (nonNullKeys t))

/-- The rows of the group of key `k`. -/
def groupRows (t : Table) (k : String) : List (List (Option String)) :=
  t.rows.filter (fun r => r.getD (keyIdx t) none == some k)

/-- The non-key columns with their cell index. -/
def ocolsE (t : Table) : List (ℕ × String) :=
  t.cols.enum.filter (fun p => p.2 ≠ "School No")

/-- Pre-rounding merged row of the group of key `k`. -/
def mergedRowFor (t : Table) (k : String) : List (String × Value) :=
  merge_group (ocolsE t) (groupRows t k)

/-- Rows produced by the `groupby(...).apply(merge_group, include_groups=False)`
step of `process_excel_data`. -/
def rawRows (t : Table) : List (String × List (String × Value)) :=
  (sortedKeys t).map (fun k => (k, mergedRowFor t k))

/-- One step of the numeric formatting pass of `process_excel_data`. -/
def roundVal : Value → Value
  | .vnum q => .vnum (round2 q)
  | v => v

/-- The rounding pass of `process_excel_data` on one merged row. -/
def roundPassRow (r : List (String × Value)) : List (String × Value) :=
  r.map (fun p => if p.1 ∈ SUM_COLUMNS then (p.1, roundVal p.2) else p)

/-- The final merged rows of `process_excel_data`. -/
def outRows (t : Table) : List (String × List (String × Value)) :=
  (rawRows t).map (fun r => (r.1, roundPassRow r.2))

/-- Header of the merged table of `process_excel_data`. -/
def outCols (t : Table) : List String :=
  "School No" :: (ocolsE t).map (fun p => p.2)

/-- `process_excel_data`: on a decoded table it validates the key column,
returning an error message instead of a merged table when absent, and
otherwise the merged, rounded table. -/
def processExcelData (t : Table) :
    Except String (List String × List (String × List (String × Value))) :=
  if "School No" ∈ t.cols then
    .ok (outCols t, outRows t)
  else
    .error "❌ Excel file must contain a 'School No' column"

end StreamlitApp

/-!
## Re-merging a merged table (claim C7)

`process_file` writes the merged table to an Excel file; re-merging reads
it back with `dtype=str`.  A numeric cell `q` (a 2-decimal value) comes
back as its decimal rendering, an empty text cell as null, and any other
text cell verbatim.
-/

/-- The decimal digits of `n`, most significant first (fuel-driven so the
kernel can evaluate it; `natToDigits` supplies enough fuel). -/
def natToDigitsAux : ℕ → ℕ → List Char
  | 0, _ => []
  | fuel + 1, n =>
    if n < 10 then [Nat.digitChar n]
    else natToDigitsAux fuel (n / 10) ++ [Nat.digitChar (n % 10)]

/-- The decimal digits of `n`, most significant first. -/
def natToDigits (n : ℕ) : List Char := natToDigitsAux (n + 1) n

/-- Decimal rendering of a non-negative 2-decimal rational (`12.34`),
modelling the string `pd.read_excel(..., dtype=str)` yields for a rounded
numeric cell. -/
def showCents (q : ℚ) : String :=
  let n := (⌊q * 100⌋).toNat
  String.mk (natToDigits (n / 100) ++ '.' :: [Nat.digitChar (n % 100 / 10), Nat.digitChar (n % 100 % 10)])

/-- How a merged cell comes back from the Excel write/read round trip:
empty text becomes a null cell, other text survives verbatim, numbers
come back as their decimal rendering. -/
def serializeV : Value → Option String
  | .vstr s => if s = "" then none else some s
  | .vnum q => some (showCents q)
  | .vraw o => o

/-- The merged output re-read as an input table. -/
def tableOfMerged (o : MergedOut) : Table :=
  ⟨o.cols, o.rows.map (fun r => some r.1 :: r.2.map (fun p => serializeV p.2))⟩

/-- The distinct trimmed non-empty textual values of column `col` within
the group of key `k` (first-seen order). -/
def distinctTrimmed (t : Table) (k col : String) : List String :=
  firstDedup ((((Merger.groupCells t k col).filterMap id).map pyStrip).filter
    (fun v => v ≠ ""))

/-- The kind of the error a `process_file` run surfaced, if any. -/
def errKindOf : Except ExcErr MergedOut → Option ErrKind
  | .error e => some e.kind
  | .ok _ => none

/-- The worked example of the specification: two rows of school "1" with
a name differing in case/whitespace and two currency-decorated revenues. -/
def ex : Table :=
  ⟨["School No", "Name", "ASSET Revenue"],
   [[some "1", some "Oak", some "$1,000.00"],
    [some "1", some "oak ", some "500"]]⟩

/-- A key-less table. -/
def t4 : Table := ⟨["X"], []⟩

/-- Keys appear in the order 2, 1. -/
def t5 : Table := ⟨["School No"], [[some "2"], [some "1"]]⟩

/-- The second row has a null grouping key. -/
def t6 : Table := ⟨["School No", "X"], [[some "1", some "a"], [none, some "b"]]⟩

/-!
## The string order is a linear order
-/

theorem char_eq_of_toNat_eq {a b : Char} (h : a.toNat = b.toNat) : a = b :=
  Char.eq_of_val_eq (UInt32.ext h)

theorem strLeb_total : ∀ a b : List Char, strLeb a b = true ∨ strLeb b a = true
  | [], _ => Or.inl rfl
  | _ :: _, [] => Or.inr rfl
  | a :: as, b :: bs => by
    rcases Nat.lt_trichotomy a.toNat b.toNat with h | h | h
    · left; simp [strLeb, h]
    · rcases strLeb_total as bs with ih | ih
      · left; simp [strLeb, h, ih]
      · right; simp [strLeb, h.symm, ih]
    · right; simp [strLeb, h]

theorem strLeb_cons_elim {a b : Char} {as bs : List Char}
    (h : strLeb (a :: as) (b :: bs) = true) :
    a.toNat < b.toNat ∨ (a.toNat = b.toNat ∧ strLeb as bs = true) := by
  by_cases h1 : a.toNat < b.toNat
  · exact Or.inl h1
  · by_cases h2 : b.toNat < a.toNat
    · simp [strLeb, h1, h2] at h
    · exact Or.inr ⟨by omega, by simpa [strLeb, h1, h2] using h⟩

theorem strLeb_cons_of_lt {a b : Char} {as bs : List Char} (h : a.toNat < b.toNat) :
    strLeb (a :: as) (b :: bs) = true := by
  simp [strLeb, h]

theorem strLeb_cons_of_eq {a b : Char} {as bs : List Char} (h : a.toNat = b.toNat)
    (ht : strLeb as bs = true) : strLeb (a :: as) (b :: bs) = true := by
  simp [strLeb, h, ht]

theorem strLeb_trans :
    ∀ a b c : List Char, strLeb a b = true → strLeb b c = true → strLeb a c = true
  | [], _, _, _, _ => rfl
  | _ :: _, [], _, h1, _ => by simp [strLeb] at h1
  | _ :: _, _ :: _, [], _, h2 => by simp [strLeb] at h2
  | a :: as, b :: bs, c :: cs, h1, h2 => by
    rcases strLeb_cons_elim h1 with hab | ⟨hab, hab'⟩ <;>
      rcases strLeb_cons_elim h2 with hbc | ⟨hbc, hbc'⟩
    · exact strLeb_cons_of_lt (by omega)
    · exact strLeb_cons_of_lt (by omega)
    · exact strLeb_cons_of_lt (by omega)
    · exact strLeb_cons_of_eq (by omega) (strLeb_trans as bs cs hab' hbc')

theorem strLeb_antisymm :
    ∀ a b : List Char, strLeb a b = true → strLeb b a = true → a = b
  | [], [], _, _ => rfl
  | [], _ :: _, _, h2 => by simp [strLeb] at h2
  | _ :: _, [], h1, _ => by simp [strLeb] at h1
  | a :: as, b :: bs, h1, h2 => by
    rcases strLeb_cons_elim h1 with hab | ⟨hab, hab'⟩ <;>
      rcases strLeb_cons_elim h2 with hba | ⟨hba, hba'⟩ <;>
      try omega
    have hc : a = b := char_eq_of_toNat_eq hab
    rw [hc, strLeb_antisymm as bs hab' hba']

theorem string_data_inj {a b : String} (h : a.data = b.data) : a = b := by
  cases a
  cases b
  exact congrArg String.mk h

instance : IsTotal String strLe := ⟨fun a b => strLeb_total a.data b.data⟩

instance : IsTrans String strLe :=
  ⟨fun a b c h1 h2 => strLeb_trans a.data b.data c.data h1 h2⟩

instance : IsAntisymm String strLe :=
  ⟨fun a b h1 h2 => string_data_inj (strLeb_antisymm a.data b.data h1 h2)⟩

theorem sortStr_sorted (l : List String) : List.Sorted strLe (sortStr l) :=
  List.sorted_insertionSort strLe l

theorem sortStr_perm (l : List String) : List.Perm (sortStr l) l :=
  List.perm_insertionSort strLe l

theorem sortStr_eq_of_perm {l₁ l₂ : List String} (h : List.Perm l₁ l₂) : sortStr l₁ = sortStr l₂ :=
  List.eq_of_perm_of_sorted ((sortStr_perm l₁).trans (h.trans (sortStr_perm l₂).symm))
    (sortStr_sorted l₁) (sortStr_sorted l₂)

theorem sortStr_eq_self_of_sorted {l : List String} (h : List.Sorted strLe l) :
    sortStr l = l :=
  List.Sorted.insertionSort_eq h

/-!
## firstDedup
-/

theorem mem_firstDedup {α : Type} [DecidableEq α] {a : α} {l : List α} :
    a ∈ firstDedup l ↔ a ∈ l := by
  induction l with
  | nil => simp [firstDedup]
  | cons x xs ih =>
    by_cases hax : a = x
    · subst hax; simp [firstDedup]
    · simp [firstDedup, List.mem_filter, hax, ih]

theorem firstDedup_nodup {α : Type} [DecidableEq α] (l : List α) :
    (firstDedup l).Nodup := by
  induction l with
  | nil => simp [firstDedup]
  | cons x xs ih =>
    refine List.nodup_cons.mpr ⟨fun hmem => ?_, ih.filter _⟩
    rcases List.mem_filter.mp hmem with ⟨-, hne⟩
    simp at hne

theorem firstDedup_length_le {α : Type} [DecidableEq α] (l : List α) :
    (firstDedup l).length ≤ l.length := by
  induction l with
  | nil => simp [firstDedup]
  | cons x xs ih =>
    have h2 := List.length_filter_le (fun y => decide (y ≠ x)) (firstDedup xs)
    simp only [firstDedup, List.length_cons]
    omega

theorem firstDedup_eq_self {α : Type} [DecidableEq α] {l : List α} (h : l.Nodup) :
    firstDedup l = l := by
  induction l with
  | nil => rfl
  | cons x xs ih =>
    rcases List.nodup_cons.mp h with ⟨hx, hxs⟩
    have hf : (firstDedup xs).filter (fun y => y ≠ x) = firstDedup xs := by
      apply List.filter_eq_self.mpr
      intro y hy
      simp only [decide_eq_true_eq]
      intro hyx
      exact hx (hyx ▸ mem_firstDedup.mp hy)
    simp only [firstDedup]
    rw [hf, ih hxs]

theorem firstDedup_perm {α : Type} [DecidableEq α] {l₁ l₂ : List α} (h : List.Perm l₁ l₂) :
    List.Perm (firstDedup l₁) (firstDedup l₂) :=
  (List.perm_ext_iff_of_nodup (firstDedup_nodup l₁) (firstDedup_nodup l₂)).mpr
    (fun a => by rw [mem_firstDedup, mem_firstDedup]; exact h.mem_iff)


/-!
## Whitespace stripping
-/

theorem dropWhile_eq_self_of_head {p : Char → Bool} {l : List Char}
    (h : ∀ c, l.head? = some c → p c = false) : l.dropWhile p = l := by
  cases l with
  | nil => rfl
  | cons a l => simp [List.dropWhile_cons, h a rfl]

theorem head_dropWhile_false {p : Char → Bool} :
    ∀ {l : List Char} {c : Char}, (l.dropWhile p).head? = some c → p c = false := by
  intro l
  induction l with
  | nil => intro c h; simp at h
  | cons a l ih =>
    intro c h
    by_cases hp : p a
    · rw [List.dropWhile_cons, if_pos hp] at h
      exact ih h
    · rw [List.dropWhile_cons, if_neg hp] at h
      obtain rfl : a = c := by simpa using h
      simpa using hp

theorem getLast?_dropWhile_of_ne_nil {p : Char → Bool} :
    ∀ {l : List Char}, l.dropWhile p ≠ [] → (l.dropWhile p).getLast? = l.getLast? := by
  intro l
  induction l with
  | nil => intro h; simp at h
  | cons a l ih =>
    intro h
    by_cases hp : p a
    · rw [List.dropWhile_cons, if_pos hp] at h ⊢
      have hl : l ≠ [] := by
        intro e
        subst e
        simp at h
      rw [ih h]
      cases l with
      | nil => exact absurd rfl hl
      | cons b t => rw [List.getLast?_cons_cons]
    · rw [List.dropWhile_cons, if_neg hp]

theorem getLast?_append_right :
    ∀ (l₁ l₂ : List Char), l₂ ≠ [] → (l₁ ++ l₂).getLast? = l₂.getLast?
  | [], _, _ => rfl
  | a :: l₁, l₂, h => by
    rw [List.cons_append]
    have h2 : l₁ ++ l₂ ≠ [] := fun e => h (List.append_eq_nil.mp e).2
    cases hq : l₁ ++ l₂ with
    | nil => exact absurd hq h2
    | cons b t => rw [List.getLast?_cons_cons, ← hq, getLast?_append_right l₁ l₂ h]

theorem stripL_head_not_ws {l : List Char} {c : Char}
    (h : (stripL l).head? = some c) : c.isWhitespace = false := by
  unfold stripL at h
  rw [List.head?_reverse] at h
  have hne : (dropWs l).reverse.dropWhile Char.isWhitespace ≠ [] := by
    intro e
    rw [e] at h
    simp at h
  rw [getLast?_dropWhile_of_ne_nil hne, List.getLast?_reverse] at h
  exact head_dropWhile_false h

theorem stripL_getLast_not_ws {l : List Char} {c : Char}
    (h : (stripL l).getLast? = some c) : c.isWhitespace = false := by
  unfold stripL at h
  rw [List.getLast?_reverse] at h
  exact head_dropWhile_false h

theorem stripL_eq_self {l : List Char}
    (hh : ∀ c, l.head? = some c → c.isWhitespace = false)
    (hl : ∀ c, l.getLast? = some c → c.isWhitespace = false) : stripL l = l := by
  unfold stripL dropWs
  rw [dropWhile_eq_self_of_head hh,
    dropWhile_eq_self_of_head (fun c h => hl c (by rwa [List.head?_reverse] at h)),
    List.reverse_reverse]

theorem stripL_idem (l : List Char) : stripL (stripL l) = stripL l :=
  stripL_eq_self (fun _ h => stripL_head_not_ws h) (fun _ h => stripL_getLast_not_ws h)

theorem pyStrip_idem (s : String) : pyStrip (pyStrip s) = pyStrip s :=
  congrArg String.mk (stripL_idem s.data)

/-!
## The `", "` join of trimmed non-empty pieces is itself trimmed
-/

theorem joinSepL_ne_nil :
    ∀ {ps : List (List Char)}, ps ≠ [] → (∀ p ∈ ps, p ≠ []) → joinSepL ps ≠ []
  | [], h, _ => absurd rfl h
  | [x], _, hp => by simpa [joinSepL] using hp x (by simp)
  | x :: y :: r, _, hp => by
    have hx : x ≠ [] := hp x (by simp)
    cases x with
    | nil => exact absurd rfl hx
    | cons a t => simp [joinSepL]

theorem head?_joinSepL :
    ∀ {ps : List (List Char)} {x : List Char}, ps.head? = some x → x ≠ [] →
      (joinSepL ps).head? = x.head?
  | [], _, h, _ => by simp at h
  | [x], _, h, _ => by
    obtain rfl : x = _ := by simpa using h
    rfl
  | x :: y :: r, _, h, hx => by
    obtain rfl : x = _ := by simpa using h
    cases x with
    | nil => exact absurd rfl hx
    | cons a t => simp [joinSepL]

theorem getLast?_joinSepL_not_ws :
    ∀ {ps : List (List Char)},
      (∀ p ∈ ps, p ≠ [] ∧ ∀ c, p.getLast? = some c → c.isWhitespace = false) →
      ∀ {c : Char}, (joinSepL ps).getLast? = some c → c.isWhitespace = false
  | [], _, c, h => by simp [joinSepL] at h
  | [x], hp, c, h => (hp x (by simp)).2 c (by simpa [joinSepL] using h)
  | x :: y :: r, hp, c, h => by
    have hy : joinSepL (y :: r) ≠ [] :=
      joinSepL_ne_nil (by simp) (fun p hm => (hp p (List.mem_cons_of_mem x hm)).1)
    rw [show joinSepL (x :: y :: r) = x ++ ',' :: ' ' :: joinSepL (y :: r) from rfl,
      getLast?_append_right _ _ (by simp)] at h
    have h2 : (',' :: ' ' :: joinSepL (y :: r)).getLast? = (joinSepL (y :: r)).getLast? := by
      cases hq : joinSepL (y :: r) with
      | nil => exact absurd hq hy
      | cons b t => simp [hq]
    rw [h2] at h
    exact getLast?_joinSepL_not_ws (fun p hm => hp p (List.mem_cons_of_mem x hm)) h

/-!
## Decimal digits and their values
-/

theorem digitChar_toNat : ∀ m, m < 10 → (Nat.digitChar m).toNat = 48 + m := by decide

theorem digitChar_isDigit : ∀ m, m < 10 → (Nat.digitChar m).isDigit = true := by decide

theorem isDigit_ne_dot {c : Char} (h : c.isDigit = true) : c ≠ '.' := by
  intro e
  subst e
  exact absurd h (by decide)

theorem natValL_snoc (l : List Char) (c : Char) :
    natValL (l ++ [c]) = 10 * natValL l + (c.toNat - 48) := by
  simp [natValL, List.foldl_append]

theorem natToDigitsAux_spec :
    ∀ fuel n, n < fuel →
      natValL (natToDigitsAux fuel n) = n ∧
        (∀ c ∈ natToDigitsAux fuel n, c.isDigit = true) ∧ natToDigitsAux fuel n ≠ []
  | 0, n, h => absurd h (Nat.not_lt_zero n)
  | fuel + 1, n, h => by
    by_cases h10 : n < 10
    · refine ⟨?_, ?_, by simp [natToDigitsAux, h10]⟩
      · have := digitChar_toNat n h10
        simp [natToDigitsAux, h10, natValL, this]
      · intro c hc
        simp [natToDigitsAux, h10] at hc
        subst hc
        exact digitChar_isDigit n h10
    · have hrec : n / 10 < fuel := by omega
      obtain ⟨ih1, ih2, ih3⟩ := natToDigitsAux_spec fuel (n / 10) hrec
      have hmod : n % 10 < 10 := Nat.mod_lt n (by omega)
      refine ⟨?_, ?_, by simp [natToDigitsAux, h10]⟩
      · rw [show natToDigitsAux (fuel + 1) n
            = natToDigitsAux fuel (n / 10) ++ [Nat.digitChar (n % 10)] by
              simp [natToDigitsAux, h10],
          natValL_snoc, ih1, digitChar_toNat (n % 10) hmod]
        omega
      · intro c hc
        simp only [natToDigitsAux, h10, if_false, List.mem_append, List.mem_singleton,
          ite_false] at hc
        rcases hc with hc | hc
        · exact ih2 c hc
        · subst hc
          exact digitChar_isDigit (n % 10) hmod

theorem natToDigits_spec (n : ℕ) :
    natValL (natToDigits n) = n ∧
      (∀ c ∈ natToDigits n, c.isDigit = true) ∧ natToDigits n ≠ [] :=
  natToDigitsAux_spec (n + 1) n (Nat.lt_succ_self n)

theorem takeWhile_append_of_all {p : Char → Bool} :
    ∀ {l₁ : List Char} {c0 : Char} {l₂ : List Char},
      (∀ c ∈ l₁, p c = true) → p c0 = false → (l₁ ++ c0 :: l₂).takeWhile p = l₁
  | [], c0, l₂, _, h2 => by simp [List.takeWhile_cons, h2]
  | a :: t, c0, l₂, h1, h2 => by
    rw [List.cons_append, List.takeWhile_cons, if_pos (h1 a (by simp)),
      takeWhile_append_of_all (fun c hc => h1 c (List.mem_cons_of_mem a hc)) h2]

theorem dropWhile_append_of_all {p : Char → Bool} :
    ∀ {l₁ : List Char} {c0 : Char} {l₂ : List Char},
      (∀ c ∈ l₁, p c = true) → p c0 = false → (l₁ ++ c0 :: l₂).dropWhile p = c0 :: l₂
  | [], c0, l₂, _, h2 => by simp [List.dropWhile_cons, h2]
  | a :: t, c0, l₂, h1, h2 => by
    rw [List.cons_append, List.dropWhile_cons, if_pos (h1 a (by simp)),
      dropWhile_append_of_all (fun c hc => h1 c (List.mem_cons_of_mem a hc)) h2]

/-!
## Rounding
-/

theorem roundHalfEven_intCast (z : ℤ) : roundHalfEven (z : ℚ) = z := by
  unfold roundHalfEven
  rw [Int.floor_intCast]
  simp only [sub_self]
  rw [if_pos (by norm_num)]

theorem roundHalfEven_nonneg {q : ℚ} (h : 0 ≤ q) : 0 ≤ roundHalfEven q := by
  unfold roundHalfEven
  have hf : (0 : ℤ) ≤ ⌊q⌋ := Int.floor_nonneg.mpr h
  split_ifs <;> omega

theorem round2_idem (q : ℚ) : round2 (round2 q) = round2 q := by
  unfold round2
  rw [div_mul_cancel₀ _ (by norm_num : (100 : ℚ) ≠ 0), roundHalfEven_intCast]

theorem round2_nonneg {q : ℚ} (h : 0 ≤ q) : 0 ≤ round2 q := by
  unfold round2
  have := roundHalfEven_nonneg (mul_nonneg h (by norm_num : (0:ℚ) ≤ 100))
  positivity

theorem round2_as_cents {q : ℚ} (h : 0 ≤ q) :
    round2 q = ((roundHalfEven (q * 100)).toNat : ℚ) / 100 := by
  unfold round2
  congr 1
  exact_mod_cast
    (Int.toNat_of_nonneg (roundHalfEven_nonneg (mul_nonneg h (by norm_num)))).symm

/-!
## The Excel round trip of a rounded numeric cell
-/

theorem showCents_natCast_div (k : ℕ) :
    showCents ((k : ℚ) / 100)
      = String.mk (natToDigits (k / 100) ++ '.' ::
          [Nat.digitChar (k % 100 / 10), Nat.digitChar (k % 100 % 10)]) := by
  unfold showCents
  have h1 : ((k : ℚ) / 100) * 100 = (k : ℚ) := by
    field_simp
  rw [h1, Int.floor_natCast, Int.toNat_natCast]

theorem clean_currency_some_eq (s : String) :
    Merger.clean_currency (some s)
      = if stripNum s = "" then 0 else (parseFloatQ (stripNum s)).getD 0 := rfl

theorem clean_currency_showCents (k : ℕ) :
    Merger.clean_currency (some (showCents ((k : ℚ) / 100))) = (k : ℚ) / 100 := by
  obtain ⟨hval, hdig, hne⟩ := natToDigits_spec (k / 100)
  rw [showCents_natCast_div]
  set d1 := Nat.digitChar (k % 100 / 10) with hd1
  set d2 := Nat.digitChar (k % 100 % 10) with hd2
  have hm1 : k % 100 / 10 < 10 := by omega
  have hm2 : k % 100 % 10 < 10 := by omega
  set ds := natToDigits (k / 100) ++ '.' :: [d1, d2] with hds
  have hdall : ∀ c ∈ ds, (c.isDigit || c == '.') = true := by
    intro c hc
    rw [hds] at hc
    rcases List.mem_append.mp hc with hc | hc
    · simp [hdig c hc]
    · rcases List.mem_cons.mp hc with hc | hc
      · simp [hc]
      · rcases List.mem_cons.mp hc with hc | hc
        · simp [hc, hd1, digitChar_isDigit _ hm1]
        · rcases List.mem_cons.mp hc with hc | hc
          · simp [hc, hd2, digitChar_isDigit _ hm2]
          · simp at hc
  have hstrip : stripNum (String.mk ds) = String.mk ds := by
    unfold stripNum
    exact congrArg String.mk (List.filter_eq_self.mpr hdall)
  have hmkne : String.mk ds ≠ "" := by
    intro e
    have : ds = [] := congrArg String.data e
    rw [hds] at this
    exact hne (List.append_eq_nil.mp this).1
  have htake : ds.takeWhile (fun c => c ≠ '.') = natToDigits (k / 100) := by
    rw [hds]
    exact takeWhile_append_of_all
      (fun c hc => by simp [isDigit_ne_dot (hdig c hc)]) (by simp)
  have hdrop : ds.dropWhile (fun c => c ≠ '.') = '.' :: [d1, d2] := by
    rw [hds]
    exact dropWhile_append_of_all
      (fun c hc => by simp [isDigit_ne_dot (hdig c hc)]) (by simp)
  have hparse : parseFloatQ (String.mk ds) = some ((k : ℚ) / 100) := by
    unfold parseFloatQ
    simp only [htake, hdrop]
    rw [if_pos]
    · congr 1
      have hv2 : natValL [d1, d2] = k % 100 := by
        have e1 := digitChar_toNat _ hm1
        have e2 := digitChar_toNat _ hm2
        simp [natValL, hd1, hd2, e1, e2]
        omega
      rw [hval, hv2]
      have hlen : ([d1, d2] : List Char).length = 2 := rfl
      rw [hlen, eq_div_iff (by norm_num : (100:ℚ) ≠ 0)]
      have hnat : (k / 100) * 100 + k % 100 = k := by omega
      have hcast : ((k / 100 : ℕ) : ℚ) * 100 + ((k % 100 : ℕ) : ℚ) = (k : ℚ) := by
        exact_mod_cast hnat
      ring_nf
      ring_nf at hcast
      linarith [hcast]
    · refine ⟨Or.inl hne, ?_, ?_⟩
      · exact List.all_eq_true.mpr hdig
      · exact List.all_eq_true.mpr (by
          intro c hc
          rcases List.mem_cons.mp hc with hc | hc
          · exact hc ▸ digitChar_isDigit _ hm1
          · rcases List.mem_cons.mp hc with hc | hc
            · exact hc ▸ digitChar_isDigit _ hm2
            · simp at hc)
  rw [clean_currency_some_eq, hstrip, if_neg hmkne, hparse]
  rfl

/-!
## Properties of the per-column merge
-/

theorem ne_empty_data {s : String} (h : s ≠ "") : s.data ≠ [] :=
  fun e => h (string_data_inj e)

theorem sortStr_mem {a : String} {l : List String} : a ∈ sortStr l ↔ a ∈ l :=
  (sortStr_perm l).mem_iff

theorem pyStrip_joinSep {l : List String}
    (h : ∀ x ∈ l, x ≠ "" ∧ pyStrip x = x) : pyStrip (joinSep l) = joinSep l := by
  unfold pyStrip joinSep
  apply congrArg String.mk
  apply stripL_eq_self
  · intro c hc
    cases l with
    | nil => simp [joinSepL] at hc
    | cons x l' =>
      have hx := h x (by simp)
      have hdata : x.data = stripL x.data := congrArg String.data hx.2.symm
      have hxne : x.data ≠ [] := ne_empty_data hx.1
      rw [head?_joinSepL (show ((x :: l').map String.data).head? = some x.data by simp)
        hxne] at hc
      rw [hdata] at hc
      exact stripL_head_not_ws hc
  · intro c hc
    refine getLast?_joinSepL_not_ws ?_ hc
    intro p hp
    rcases List.mem_map.mp hp with ⟨x, hx, rfl⟩
    have hx2 := h x hx
    refine ⟨ne_empty_data hx2.1, ?_⟩
    intro c2 hc2
    have hdata : x.data = stripL x.data := congrArg String.data hx2.2.symm
    rw [hdata] at hc2
    exact stripL_getLast_not_ws hc2

theorem mergeCol_sum_eq {col : String} {cells : List (Option String)}
    (h : col ∈ Merger.SUM_COLUMNS) :
    Merger.mergeCol col cells = .vnum ((cells.map Merger.clean_currency).sum) := by
  unfold Merger.mergeCol
  rw [if_pos h]

theorem mergeCol_text_eq {col : String} {cells : List (Option String)}
    (h1 : col ∉ Merger.SUM_COLUMNS) (h2 : col ≠ "School No") :
    Merger.mergeCol col cells =
      (if (firstDedup (cells.filterMap id)).length = 1 then
        Value.vstr (pyStrip ((firstDedup (cells.filterMap id)).getD 0 ""))
      else
        Value.vstr (joinSep (sortStr (firstDedup
          (((firstDedup (cells.filterMap id)).map pyStrip).filter (fun v => v ≠ "")))))) := by
  unfold Merger.mergeCol
  rw [if_neg h1, if_neg h2]

theorem mergeCol_vstr_trimmed {col : String} {cells : List (Option String)} {s : String}
    (h1 : col ∉ Merger.SUM_COLUMNS) (h2 : col ≠ "School No")
    (h : Merger.mergeCol col cells = .vstr s) : pyStrip s = s := by
  rw [mergeCol_text_eq h1 h2] at h
  by_cases hone : (firstDedup (cells.filterMap id)).length = 1
  · rw [if_pos hone] at h
    obtain rfl : s = _ := (Value.vstr.injEq _ _ ▸ h).symm
    exact pyStrip_idem _
  · rw [if_neg hone] at h
    have hs : s = joinSep (sortStr (firstDedup
        (((firstDedup (cells.filterMap id)).map pyStrip).filter (fun v => v ≠ "")))) :=
      (Value.vstr.injEq _ _ ▸ h).symm
    subst hs
    apply pyStrip_joinSep
    intro x hx
    have hx2 := mem_firstDedup.mp (sortStr_mem.mp hx)
    rcases List.mem_filter.mp hx2 with ⟨hxm, hxe⟩
    rcases List.mem_map.mp hxm with ⟨v, -, rfl⟩
    exact ⟨by simpa using hxe, pyStrip_idem v⟩

theorem mergeCol_perm {col : String} {cells cells' : List (Option String)}
    (hp : List.Perm cells cells') (h2 : col ≠ "School No") :
    Merger.mergeCol col cells = Merger.mergeCol col cells' := by
  by_cases h1 : col ∈ Merger.SUM_COLUMNS
  · rw [mergeCol_sum_eq h1, mergeCol_sum_eq h1,
      List.Perm.sum_eq (hp.map Merger.clean_currency)]
  · rw [mergeCol_text_eq h1 h2, mergeCol_text_eq h1 h2]
    have hv : List.Perm (firstDedup (cells.filterMap id)) (firstDedup (cells'.filterMap id)) :=
      firstDedup_perm (hp.filterMap id)
    have hlen := hv.length_eq
    by_cases hone : (firstDedup (cells.filterMap id)).length = 1
    · rw [if_pos hone, if_pos (hlen ▸ hone)]
      obtain ⟨a, ha⟩ := List.length_eq_one.mp hone
      rw [ha] at hv
      have ha' := List.perm_singleton.mp hv.symm
      rw [ha, ha']
    · rw [if_neg hone, if_neg (hlen ▸ hone)]
      congr 2
      exact sortStr_eq_of_perm (firstDedup_perm ((hv.map pyStrip).filter _))

/-!
## Locating a merged cell in the pipeline output
-/

theorem find?_key_map {β : Type} :
    ∀ (ks : List String) (f : String → β) (k : String), k ∈ ks →
      (ks.map (fun x => (x, f x))).find? (fun r => r.1 == k) = some (k, f k)
  | [], _, _, hk => absurd hk (List.not_mem_nil _)
  | a :: t, f, k, hk => by
    by_cases hak : a = k
    · subst hak
      simp [List.find?_cons]
    · have hk' : k ∈ t := by
        rcases List.mem_cons.mp hk with h | h
        · exact absurd h.symm hak
        · exact h
      rw [List.map_cons, List.find?_cons]
      simp only [beq_eq_false_iff_ne.mpr hak, Bool.false_eq_true]
      exact find?_key_map t f k hk'

theorem lookup_enumFrom_filter_map {β : Type} (g : ℕ × String → β) :
    ∀ (cols : List String) (n : ℕ) (col : String), col ∈ cols → col ≠ "School No" →
      List.lookup col
          (((List.enumFrom n cols).filter (fun p => p.2 ≠ "School No")).map
            (fun p => (p.2, g p)))
        = some (g (n + cols.findIdx (fun c => c == col), col))
  | [], _, col, hmem, _ => absurd hmem (List.not_mem_nil col)
  | c :: cs, n, col, hmem, hne => by
    have hEF : List.enumFrom n (c :: cs) = (n, c) :: List.enumFrom (n + 1) cs := rfl
    by_cases hc : c = col
    · subst hc
      rw [hEF, List.filter_cons_of_pos (by simpa using hne), List.map_cons]
      have hidx : (c :: cs).findIdx (fun x => x == c) = 0 := by
        simp [List.findIdx_cons]
      rw [hidx]
      simp [List.lookup]
    · have hmem' : col ∈ cs := by
        rcases List.mem_cons.mp hmem with h | h
        · exact absurd h.symm hc
        · exact h
      have hidx : (c :: cs).findIdx (fun x => x == col) = cs.findIdx (fun x => x == col) + 1 := by
        simp [List.findIdx_cons, beq_eq_false_iff_ne.mpr hc]
      by_cases hck : c = "School No"
      · rw [hEF, List.filter_cons_of_neg (by simpa using hck), hidx,
          lookup_enumFrom_filter_map g cs (n + 1) col hmem' hne]
        have harith : n + 1 + cs.findIdx (fun x => x == col)
            = n + (cs.findIdx (fun x => x == col) + 1) := by omega
        rw [harith]
      · rw [hEF, List.filter_cons_of_pos (by simpa using hck), List.map_cons, hidx]
        have hlne : col ≠ c := fun e => hc e.symm
        rw [show List.lookup col ((c, g (n, c)) :: ((List.enumFrom (n + 1) cs).filter
            (fun p => p.2 ≠ "School No")).map (fun p => (p.2, g p)))
          = List.lookup col (((List.enumFrom (n + 1) cs).filter
            (fun p => p.2 ≠ "School No")).map (fun p => (p.2, g p))) by
            simp [List.lookup, beq_eq_false_iff_ne.mpr hlne]]
        rw [lookup_enumFrom_filter_map g cs (n + 1) col hmem' hne]
        have harith : n + 1 + cs.findIdx (fun x => x == col)
            = n + (cs.findIdx (fun x => x == col) + 1) := by omega
        rw [harith]

theorem roundPass_merge_group (t : Table) (k : String) :
    Merger.roundPassRow (Merger.mergedRowFor t k)
      = (Merger.ocolsE t).map (fun p =>
          (p.2, if p.2 ∈ Merger.SUM_COLUMNS
                then Merger.roundVal (Merger.mergeCol p.2
                  ((Merger.groupRows t k).map (fun r => r.getD p.1 none)))
                else Merger.mergeCol p.2
                  ((Merger.groupRows t k).map (fun r => r.getD p.1 none)))) := by
  unfold Merger.mergedRowFor Merger.merge_group Merger.roundPassRow
  rw [List.map_map]
  apply List.map_congr_left
  intro p _
  by_cases h : p.2 ∈ Merger.SUM_COLUMNS
  · simp [Function.comp, h]
  · simp [Function.comp, h]

theorem mergedValAt_eq (t : Table) (k col : String)
    (hk : k ∈ Merger.sortedKeys t) (hcol : col ∈ t.cols) (hne : col ≠ "School No") :
    Merger.mergedValAt t k col
      = some (if col ∈ Merger.SUM_COLUMNS
              then Merger.roundVal (Merger.mergeCol col (Merger.groupCells t k col))
              else Merger.mergeCol col (Merger.groupCells t k col)) := by
  unfold Merger.mergedValAt Merger.outRows Merger.rawRows
  rw [List.map_map]
  have hcomp : ((fun r : String × List (String × Value) => (r.1, Merger.roundPassRow r.2))
        ∘ (fun x => (x, Merger.mergedRowFor t x)))
      = fun x => (x, Merger.roundPassRow (Merger.mergedRowFor t x)) := rfl
  rw [hcomp, find?_key_map _ _ _ hk]
  show List.lookup col (Merger.roundPassRow (Merger.mergedRowFor t k)) = _
  rw [roundPass_merge_group]
  unfold Merger.ocolsE
  rw [show t.cols.enum = List.enumFrom 0 t.cols from rfl,
    lookup_enumFrom_filter_map _ t.cols 0 col hcol hne, Nat.zero_add]
  rfl

/-!
## Row-order invariance of the pipeline
-/

theorem ocolsE_snd_ne_key {t : Table} {p : ℕ × String} (hp : p ∈ Merger.ocolsE t) :
    p.2 ≠ "School No" := by
  have := List.mem_filter.mp hp
  simpa using this.2

theorem outRows_perm (t : Table) (rows' : List (List (Option String)))
    (hp : List.Perm t.rows rows') :
    Merger.outRows ⟨t.cols, rows'⟩ = Merger.outRows t := by
  have hnn : List.Perm (Merger.nonNullKeys ⟨t.cols, rows'⟩) (Merger.nonNullKeys t) := by
    unfold Merger.nonNullKeys
    exact hp.symm.filterMap _
  have hsk : Merger.sortedKeys ⟨t.cols, rows'⟩ = Merger.sortedKeys t := by
    unfold Merger.sortedKeys
    exact sortStr_eq_of_perm (firstDedup_perm hnn)
  have hrow : ∀ k, Merger.mergedRowFor ⟨t.cols, rows'⟩ k = Merger.mergedRowFor t k := by
    intro k
    unfold Merger.mergedRowFor Merger.merge_group
    apply List.map_congr_left
    intro p hpmem
    have hpk : p.2 ≠ "School No" := ocolsE_snd_ne_key hpmem
    have hcells : List.Perm
        ((Merger.groupRows ⟨t.cols, rows'⟩ k).map (fun r => r.getD p.1 none))
        ((Merger.groupRows t k).map (fun r => r.getD p.1 none)) := by
      unfold Merger.groupRows
      exact (hp.symm.filter _).map _
    rw [mergeCol_perm hcells hpk]
  unfold Merger.outRows Merger.rawRows
  rw [hsk]
  rw [List.map_map, List.map_map]
  apply List.map_congr_left
  intro k _
  simp only [Function.comp]
  rw [hrow k]

/-!
## Every merged value is a rounded non-negative sum or a trimmed string
-/

theorem parseFloatQ_nonneg {s : String} {q : ℚ} (h : parseFloatQ s = some q) : 0 ≤ q := by
  unfold parseFloatQ at h
  split at h
  · split_ifs at h
    obtain rfl : ((natValL _ : ℚ)) = q := by injection h
    positivity
  · split_ifs at h
    obtain rfl : ((natValL _ : ℚ) + (natValL _ : ℚ) / 10 ^ _) = q := by injection h
    positivity

theorem prod_eq_split {α β : Type} {a c : α} {b d : β} (h : (a, b) = (c, d)) :
    a = c ∧ b = d := by
  rw [Prod.mk.injEq] at h
  exact h

theorem clean_currency_nonneg (v : Option String) : 0 ≤ Merger.clean_currency v := by
  cases v with
  | none => exact le_refl 0
  | some s =>
    rw [clean_currency_some_eq]
    split_ifs
    · exact le_refl 0
    · cases hq : parseFloatQ (stripNum s) with
      | none => simp [Option.getD]
      | some q => simpa [Option.getD] using parseFloatQ_nonneg hq

theorem mergeCol_is_vstr {col : String} {cells : List (Option String)}
    (h1 : col ∉ Merger.SUM_COLUMNS) (h2 : col ≠ "School No") :
    ∃ s, Merger.mergeCol col cells = .vstr s := by
  rw [mergeCol_text_eq h1 h2]
  by_cases hone : (firstDedup (cells.filterMap id)).length = 1
  · rw [if_pos hone]
    exact ⟨_, rfl⟩
  · rw [if_neg hone]
    exact ⟨_, rfl⟩

theorem outRows_val_spec {t : Table} {k : String} {row : List (String × Value)}
    (hrow : (k, row) ∈ Merger.outRows t) {c : String} {v : Value} (hcv : (c, v) ∈ row) :
    c ≠ "School No" ∧
      (c ∈ Merger.SUM_COLUMNS → ∃ S : ℚ, 0 ≤ S ∧ v = .vnum (round2 S)) ∧
      (c ∉ Merger.SUM_COLUMNS → ∃ s : String, v = .vstr s ∧ pyStrip s = s) := by
  unfold Merger.outRows Merger.rawRows at hrow
  rw [List.map_map] at hrow
  rcases List.mem_map.mp hrow with ⟨k₀, -, hk₀⟩
  simp only [Function.comp] at hk₀
  obtain ⟨hkk, hrr⟩ := prod_eq_split hk₀
  subst hkk
  subst hrr
  unfold Merger.roundPassRow at hcv
  rcases List.mem_map.mp hcv with ⟨q, hq, hqe⟩
  unfold Merger.mergedRowFor Merger.merge_group at hq
  rcases List.mem_map.mp hq with ⟨p, hpmem, hpe⟩
  have hpk : p.2 ≠ "School No" := ocolsE_snd_ne_key hpmem
  subst hpe
  dsimp only at hqe
  by_cases hsum : p.2 ∈ Merger.SUM_COLUMNS
  · rw [if_pos hsum] at hqe
    obtain ⟨hc, hv⟩ := prod_eq_split hqe
    subst hc
    refine ⟨hpk, fun _ => ?_, fun hns => absurd hsum hns⟩
    rw [mergeCol_sum_eq hsum] at hv
    refine ⟨(((Merger.groupRows t k₀).map (fun r => r.getD p.1 none)).map
      Merger.clean_currency).sum, ?_, ?_⟩
    · apply List.sum_nonneg
      intro x hx
      rcases List.mem_map.mp hx with ⟨o, -, rfl⟩
      exact clean_currency_nonneg o
    · rw [← hv]
      rfl
  · rw [if_neg hsum] at hqe
    obtain ⟨hc, hv⟩ := prod_eq_split hqe
    subst hc
    refine ⟨hpk, fun hs => absurd hs hsum, fun _ => ?_⟩
    obtain ⟨s, hs⟩ := @mergeCol_is_vstr p.2
      ((Merger.groupRows t k₀).map (fun r => r.getD p.1 none)) hsum hpk
    rw [hs] at hv
    exact ⟨s, hv.symm, mergeCol_vstr_trimmed hsum hpk hs⟩

/-!
## Helper facts about the pipeline
-/

theorem mem_sortedKeys {t : Table} {k : String} :
    k ∈ Merger.sortedKeys t ↔ some k ∈ Merger.keyCells t := by
  unfold Merger.sortedKeys Merger.keyCells Merger.nonNullKeys
  rw [sortStr_mem, mem_firstDedup, List.mem_filterMap]
  constructor
  · rintro ⟨r, hr, he⟩
    exact List.mem_map.mpr ⟨r, hr, he⟩
  · intro h
    rcases List.mem_map.mp h with ⟨r, hr, he⟩
    exact ⟨r, hr, he⟩

theorem sortedKeys_nodup (t : Table) : (Merger.sortedKeys t).Nodup :=
  (sortStr_perm _).nodup_iff.mpr (firstDedup_nodup _)

theorem sortedKeys_sorted (t : Table) : List.Sorted strLe (Merger.sortedKeys t) :=
  sortStr_sorted _

theorem outKeys_eq (t : Table) :
    (Merger.outRows t).map (fun r => r.1) = Merger.sortedKeys t := by
  unfold Merger.outRows Merger.rawRows
  rw [List.map_map, List.map_map]
  have h : (((fun r : String × List (String × Value) => r.1)
      ∘ fun r : String × List (String × Value) => (r.1, Merger.roundPassRow r.2))
      ∘ fun k => (k, Merger.mergedRowFor t k)) = id := rfl
  rw [h]
  exact List.map_id _

theorem processFile_match (t : Table) :
    Merger.processFile t
      = (match Merger.processBody t with
         | .ok o => .ok o
         | .error e => .error ⟨.otherError, "Error processing file: " ++ e.msg⟩) := rfl

theorem processFile_ok {t : Table} (hkey : "School No" ∈ t.cols) :
    Merger.processFile t
      = .ok ⟨Merger.outCols t, Merger.outRows t, t.rows.length, (Merger.outRows t).length⟩ := by
  rw [processFile_match]
  unfold Merger.processBody
  rw [if_pos hkey]

theorem processFile_error {t : Table} (hkey : "School No" ∉ t.cols) :
    Merger.processFile t
      = .error ⟨.otherError,
          "Error processing file: Excel file must contain a 'School No' column"⟩ := by
  rw [processFile_match]
  unfold Merger.processBody
  rw [if_neg hkey]
  rfl

theorem lookup_mem {a : String} {v : Value} :
    ∀ {l : List (String × Value)}, List.lookup a l = some v → (a, v) ∈ l := by
  intro l
  induction l with
  | nil => intro h; simp [List.lookup] at h
  | cons p t ih =>
    obtain ⟨x, y⟩ := p
    intro h
    by_cases hab : a = x
    · subst hab
      rw [show List.lookup a ((a, y) :: t) = some y by simp [List.lookup]] at h
      have h2 : y = v := by injection h
      rw [← h2]
      exact List.mem_cons_self _ _
    · rw [show List.lookup a ((x, y) :: t) = List.lookup a t by
        simp [List.lookup, beq_eq_false_iff_ne.mpr hab]] at h
      exact List.mem_cons_of_mem _ (ih h)

theorem snd_mem_of_mem_enumFrom {α : Type} :
    ∀ {l : List α} {n : ℕ} {p : ℕ × α}, p ∈ List.enumFrom n l → p.2 ∈ l := by
  intro l
  induction l with
  | nil => intro n p h; simp at h
  | cons a t ih =>
    intro n p h
    rcases List.mem_cons.mp h with h | h
    · subst h
      exact List.mem_cons_self _ _
    · exact List.mem_cons_of_mem a (ih h)

theorem enumFrom_map_snd {α : Type} :
    ∀ (l : List α) (n : ℕ), (List.enumFrom n l).map (fun p => p.2) = l
  | [], _ => rfl
  | a :: t, n => by
    rw [show List.enumFrom n (a :: t) = (n, a) :: List.enumFrom (n + 1) t from rfl,
      List.map_cons, enumFrom_map_snd t (n + 1)]

theorem filter_enumFrom_map_snd {α : Type} (f : α → Bool) :
    ∀ (l : List α) (n : ℕ),
      ((List.enumFrom n l).filter (fun p => f p.2)).map (fun p => p.2) = l.filter f
  | [], _ => rfl
  | a :: t, n => by
    rw [show List.enumFrom n (a :: t) = (n, a) :: List.enumFrom (n + 1) t from rfl]
    by_cases hf : f a
    · rw [show List.filter (fun p => f p.2) ((n, a) :: List.enumFrom (n + 1) t)
          = (n, a) :: List.filter (fun p => f p.2) (List.enumFrom (n + 1) t)
        from List.filter_cons_of_pos hf,
        List.map_cons, filter_enumFrom_map_snd f t (n + 1),
        List.filter_cons_of_pos hf]
    · rw [show List.filter (fun p => f p.2) ((n, a) :: List.enumFrom (n + 1) t)
          = List.filter (fun p => f p.2) (List.enumFrom (n + 1) t)
        from List.filter_cons_of_neg (by simpa using hf),
        filter_enumFrom_map_snd f t (n + 1),
        List.filter_cons_of_neg (by simpa using hf)]

theorem ocolsE_map_snd (t : Table) :
    (Merger.ocolsE t).map (fun p => p.2) = t.cols.filter (fun c => c ≠ "School No") := by
  unfold Merger.ocolsE
  exact filter_enumFrom_map_snd (fun c => decide (c ≠ "School No")) t.cols 0

theorem getD_drop {α : Type} (d : α) :
    ∀ (l : List α) (n : ℕ), l.getD n d = (l.drop n).getD 0 d
  | [], n => by simp
  | a :: t, 0 => rfl
  | a :: t, n + 1 => by
    rw [List.drop_succ_cons]
    exact getD_drop d t n

theorem filter_key_map_nodup {ks : List String} (f : String → List (Option String))
    (hf : ∀ x, (f x).getD 0 none = some x) :
    ∀ {k : String}, ks.Nodup → k ∈ ks →
      (ks.map f).filter (fun r => r.getD 0 none == some k) = [f k] := by
  induction ks with
  | nil => intro k _ hk; exact absurd hk (List.not_mem_nil k)
  | cons a t ih =>
    intro k hnd hk
    rcases List.nodup_cons.mp hnd with ⟨ha, hnd'⟩
    by_cases hak : a = k
    · subst hak
      rw [List.map_cons, List.filter_cons_of_pos (by rw [hf a]; exact beq_self_eq_true _)]
      congr 1
      apply List.filter_eq_nil_iff.mpr
      intro r hr
      rcases List.mem_map.mp hr with ⟨x, hx, rfl⟩
      have hxk : x ≠ a := fun e => ha (e ▸ hx)
      rw [hf x]
      simp [hxk]
    · have hk' : k ∈ t := by
        rcases List.mem_cons.mp hk with h | h
        · exact absurd h.symm hak
        · exact h
      rw [List.map_cons, List.filter_cons_of_neg (by rw [hf a]; simp [hak]), ih hnd' hk']

/-!
## The claims
-/

/-- C3: `clean_currency` is total over arbitrary input (it is a total
function of type `Option String → ℚ`, never raising): null input yields
0.0; input whose stripped form (non-digit, non-dot characters removed) is
empty yields 0.0; and input whose stripped form fails to parse as a float
yields 0.0. -/
theorem clean_currency_total_zero_policy :
    Merger.clean_currency none = 0 ∧
      (∀ s : String, stripNum s = "" → Merger.clean_currency (some s) = 0) ∧
      (∀ s : String, parseFloatQ (stripNum s) = none → Merger.clean_currency (some s) = 0) := by
  refine ⟨rfl, fun s h => ?_, fun s h => ?_⟩
  · rw [clean_currency_some_eq, if_pos h]
  · rw [clean_currency_some_eq]
    split_ifs
    · rfl
    · rw [h]
      rfl

/-- Witness for C3 at concrete inputs: "abc" strips to the empty string,
"1.2.3" strips to itself and fails to parse; both normalize to 0. -/
theorem clean_currency_total_zero_policy_witness :
    Merger.clean_currency none = 0 ∧
      Merger.clean_currency (some "abc") = 0 ∧
      Merger.clean_currency (some "1.2.3") = 0 :=
  ⟨clean_currency_total_zero_policy.1,
   clean_currency_total_zero_policy.2.1 "abc" (by decide),
   clean_currency_total_zero_policy.2.2 "1.2.3" (by decide)⟩

/-- C4 (amended): a table lacking the "School No" column fails before any
grouping work, producing no output, with an error message identifying the
missing column; however the `try/except` wrapper of `process_file`
re-raises it as the same generic exception kind used for downstream
errors, so at the `process_file` boundary it is distinguishable by
message text only, not by error kind. -/
theorem missing_key_schema_error (t : Table) (h : "School No" ∉ t.cols) :
    Merger.processFile t
      = .error ⟨.otherError,
          "Error processing file: Excel file must contain a 'School No' column"⟩ :=
  processFile_error h

/-- Witness for C4 at the concrete key-less table `t4`. -/
theorem missing_key_schema_error_witness :
    Merger.processFile t4
      = .error ⟨.otherError,
          "Error processing file: Excel file must contain a 'School No' column"⟩ :=
  missing_key_schema_error t4 (by decide)

/-- C4 counterexample (to the claim as stated): the schema failure and a
downstream read failure surface with the *same* error kind (the generic
re-raised `Exception`), so the error kind does not distinguish them; only
the message text differs. -/
theorem missing_key_error_kind_not_distinguishable :
    Merger.processFile t4
        = .error ⟨.otherError,
            "Error processing file: Excel file must contain a 'School No' column"⟩ ∧
      Merger.processFileFrom (.error "read failed")
        = .error ⟨.otherError, "Error processing file: read failed"⟩ ∧
      errKindOf (Merger.processFile t4)
        = errKindOf (Merger.processFileFrom (.error "read failed")) := by
  refine ⟨?_, rfl, rfl⟩
  rw [processFile_match]
  unfold Merger.processBody
  rw [if_neg (by decide : ¬("School No" ∈ t4.cols))]
  rfl

/-- C5 (amended): the merged rows appear in ascending lexicographic
(code-point) order of the distinct non-null grouping-key values — the
order `groupby`'s default `sort=True` produces — and form exactly one row
per distinct non-null key. -/
theorem output_group_order_sorted (t : Table) :
    List.Sorted strLe ((Merger.outRows t).map (fun r => r.1)) ∧
      List.Perm ((Merger.outRows t).map (fun r => r.1))
        (firstDedup (Merger.nonNullKeys t)) := by
  rw [outKeys_eq]
  exact ⟨sortedKeys_sorted t, sortStr_perm _⟩

/-- C5 counterexample (to the claim as stated): for the table `t5` whose
keys appear in the order 2, 1, the output rows are keyed 1, 2 — sorted
order, not the first-seen order 2, 1. -/
theorem output_group_order_not_first_seen :
    (Merger.outRows t5).map (fun r => r.1) = ["1", "2"] ∧
      firstDedup (Merger.nonNullKeys t5) = ["2", "1"] ∧
      (Merger.outRows t5).map (fun r => r.1) ≠ firstDedup (Merger.nonNullKeys t5) := by
  decide

/-- C9: `clean_currency` always returns a non-negative number (the strip
removes minus signs, so "-500" normalizes to 500.0), and consequently
every merged aggregation-column value is non-negative. -/
theorem clean_currency_nonneg_outputs :
    (∀ v : Option String, 0 ≤ Merger.clean_currency v) ∧
      Merger.clean_currency (some "-500") = 500 ∧
      (∀ (t : Table) (k col : String) (q : ℚ),
        Merger.mergedValAt t k col = some (.vnum q) → 0 ≤ q) := by
  refine ⟨clean_currency_nonneg, rfl, ?_⟩
  intro t k col q h
  unfold Merger.mergedValAt at h
  cases hf : (Merger.outRows t).find? (fun r => r.1 == k) with
  | none =>
    rw [hf] at h
    exact Option.noConfusion (show (none : Option Value) = some (Value.vnum q) from h)
  | some r =>
    rw [hf] at h
    have hrmem : r ∈ Merger.outRows t := List.mem_of_find?_eq_some hf
    obtain ⟨k', row⟩ := r
    have h' : List.lookup col row = some (Value.vnum q) := h
    have hcv : (col, Value.vnum q) ∈ row := lookup_mem h'
    have hspec := outRows_val_spec hrmem hcv
    by_cases hsum : col ∈ Merger.SUM_COLUMNS
    · obtain ⟨S, hS, he⟩ := hspec.2.1 hsum
      have : q = round2 S := by injection he
      rw [this]
      exact round2_nonneg hS
    · obtain ⟨s, he, -⟩ := hspec.2.2 hsum
      exact absurd he (by simp)

/-- Witness for C9: on the specification's worked example the merged
"ASSET Revenue" value is a rounded sum, and the theorem yields its
non-negativity. -/
theorem clean_currency_nonneg_outputs_witness :
    0 ≤ Merger.clean_currency (some "x") ∧
      0 ≤ round2 ((Merger.groupCells ex "1" "ASSET Revenue").map Merger.clean_currency).sum := by
  have hval : Merger.mergedValAt ex "1" "ASSET Revenue"
      = some (.vnum (round2 ((Merger.groupCells ex "1" "ASSET Revenue").map
          Merger.clean_currency).sum)) := by
    rw [mergedValAt_eq ex "1" "ASSET Revenue" (by decide) (by decide) (by decide),
      if_pos (by decide : "ASSET Revenue" ∈ Merger.SUM_COLUMNS),
      mergeCol_sum_eq (by decide : "ASSET Revenue" ∈ Merger.SUM_COLUMNS)]
    rfl
  exact ⟨clean_currency_nonneg_outputs.1 (some "x"),
    clean_currency_nonneg_outputs.2.2 ex "1" "ASSET Revenue" _ hval⟩

/-- C10: the Flask backend pipeline (`merger.py`) and the Streamlit
pipeline (`streamlit_app.py`) are duplicated code and compute identical
results: same currency normalization, same per-group reconciliation, and
the same merged, rounded table for every input table. -/
theorem backend_pipelines_equivalent :
    (∀ v : Option String, StreamlitApp.clean_currency v = Merger.clean_currency v) ∧
      (∀ (cols : List (ℕ × String)) (rows : List (List (Option String))),
        StreamlitApp.merge_group cols rows = Merger.merge_group cols rows) ∧
      (∀ t : Table, StreamlitApp.outRows t = Merger.outRows t) ∧
      (∀ t : Table, StreamlitApp.outCols t = Merger.outCols t) ∧
      (∀ t : Table, "School No" ∈ t.cols →
        StreamlitApp.processExcelData t = .ok (Merger.outCols t, Merger.outRows t)) := by
  refine ⟨fun v => rfl, fun cols rows => rfl, fun t => rfl, fun t => rfl, fun t h => ?_⟩
  unfold StreamlitApp.processExcelData
  rw [if_pos h]
  rfl

/-- Witness for C10 at the concrete table `t5`. -/
theorem backend_pipelines_equivalent_witness :
    StreamlitApp.processExcelData t5 = .ok (Merger.outCols t5, Merger.outRows t5) :=
  backend_pipelines_equivalent.2.2.2.2 t5 (by decide)

/-- C1: for a table with the grouping-key column, the merged value of an
aggregation column present in the table, in the group of any key `k`
occurring in the table, is the 2-decimal rounding of the sum of
`clean_currency` over every row's raw cell in that group (null cells
contributing 0.0 through `clean_currency none = 0`). -/
theorem agg_column_merged_sum (t : Table) (col k : String)
    (hsum : col ∈ Merger.SUM_COLUMNS) (hcol : col ∈ t.cols)
    (hk : some k ∈ Merger.keyCells t) :
    Merger.mergedValAt t k col
      = some (.vnum (round2 ((Merger.groupCells t k col).map Merger.clean_currency).sum)) := by
  have hne : col ≠ "School No" := by
    intro e
    subst e
    exact absurd hsum (by decide)
  rw [mergedValAt_eq t k col (mem_sortedKeys.mpr hk) hcol hne, if_pos hsum,
    mergeCol_sum_eq hsum]
  rfl

/-- Witness for C1 at the specification's worked example. -/
theorem agg_column_merged_sum_witness :
    Merger.mergedValAt ex "1" "ASSET Revenue"
      = some (.vnum (round2 ((Merger.groupCells ex "1" "ASSET Revenue").map
          Merger.clean_currency).sum)) :=
  agg_column_merged_sum ex "ASSET Revenue" "1" (by decide) (by decide) (by decide)

theorem length_le_one_of_all_eq {l : List String} (hnd : l.Nodup) (a : String)
    (h : ∀ x ∈ l, x = a) : l.length ≤ 1 := by
  cases l with
  | nil => simp
  | cons x t =>
    cases t with
    | nil => simp
    | cons y u =>
      exfalso
      have hx : x = a := h x (by simp)
      have hy : y = a := h y (by simp)
      rcases List.nodup_cons.mp hnd with ⟨hmem, -⟩
      exact hmem (by rw [hx, ← hy]; exact List.mem_cons_self y u)

theorem sortStr_firstDedup_congr {l₁ l₂ : List String} (h : ∀ a, a ∈ l₁ ↔ a ∈ l₂) :
    sortStr (firstDedup l₁) = sortStr (firstDedup l₂) :=
  sortStr_eq_of_perm
    ((List.perm_ext_iff_of_nodup (firstDedup_nodup _) (firstDedup_nodup _)).mpr
      (fun a => by rw [mem_firstDedup, mem_firstDedup]; exact h a))

/-- C2: for a non-key, non-aggregation column with at least 2 distinct
trimmed non-empty values in the group of key `k`, the merged value is
the lexicographically sorted, deduplicated list of those trimmed values
joined with `", "`; and the whole merged output is invariant under any
permutation of the input rows. -/
theorem text_column_sorted_join (t : Table) (col k : String)
    (hns : col ∉ Merger.SUM_COLUMNS) (hnk : col ≠ "School No") (hcol : col ∈ t.cols)
    (hk : some k ∈ Merger.keyCells t)
    (h2 : 2 ≤ (distinctTrimmed t k col).length) :
    Merger.mergedValAt t k col
        = some (.vstr (joinSep (sortStr (distinctTrimmed t k col)))) ∧
      ∀ rows' : List (List (Option String)), List.Perm t.rows rows' →
        Merger.mergedValAt ⟨t.cols, rows'⟩ k col = Merger.mergedValAt t k col := by
  constructor
  · rw [mergedValAt_eq t k col (mem_sortedKeys.mpr hk) hcol hnk, if_neg hns,
      mergeCol_text_eq hns hnk]
    have hsub : ∀ x ∈ distinctTrimmed t k col,
        ∃ u ∈ firstDedup ((Merger.groupCells t k col).filterMap id), pyStrip u = x := by
      intro x hx
      have hx2 := mem_firstDedup.mp hx
      rcases List.mem_filter.mp hx2 with ⟨hxm, -⟩
      rcases List.mem_map.mp hxm with ⟨u, hu, rfl⟩
      exact ⟨u, mem_firstDedup.mpr hu, rfl⟩
    have hlen2 : 2 ≤ (firstDedup ((Merger.groupCells t k col).filterMap id)).length := by
      cases hfd : firstDedup ((Merger.groupCells t k col).filterMap id) with
      | nil =>
        exfalso
        have hne : distinctTrimmed t k col ≠ [] := by
          intro e
          rw [e] at h2
          simp at h2
        obtain ⟨x, hx⟩ := List.exists_mem_of_ne_nil _ hne
        obtain ⟨u, hu, -⟩ := hsub x hx
        rw [hfd] at hu
        exact absurd hu (List.not_mem_nil u)
      | cons v vs =>
        cases vs with
        | nil =>
          exfalso
          have hall : ∀ x ∈ distinctTrimmed t k col, x = pyStrip v := by
            intro x hx
            obtain ⟨u, hu, he⟩ := hsub x hx
            rw [hfd] at hu
            have huv : u = v := by simpa using hu
            rw [← he, huv]
          have hnodup : (distinctTrimmed t k col).Nodup := firstDedup_nodup _
          have hle := length_le_one_of_all_eq hnodup (pyStrip v) hall
          omega
        | cons w ws => simp
    rw [if_neg (by omega :
      ¬(firstDedup ((Merger.groupCells t k col).filterMap id)).length = 1)]
    have hmem : ∀ a,
        a ∈ ((firstDedup ((Merger.groupCells t k col).filterMap id)).map pyStrip).filter
              (fun v => v ≠ "")
          ↔ a ∈ (((Merger.groupCells t k col).filterMap id).map pyStrip).filter
              (fun v => v ≠ "") := by
      intro a
      simp only [List.mem_filter, List.mem_map, mem_firstDedup]
    rw [show distinctTrimmed t k col
        = firstDedup ((((Merger.groupCells t k col).filterMap id).map pyStrip).filter
            (fun v => v ≠ "")) from rfl,
      sortStr_firstDedup_congr hmem]
  · intro rows' hp
    unfold Merger.mergedValAt
    rw [outRows_perm t rows' hp]

/-- Witness for C2: the worked example's "Name" column merges to
"Oak, oak", and reversing the input rows leaves the merged value
unchanged. -/
theorem text_column_sorted_join_witness :
    Merger.mergedValAt ex "1" "Name"
        = some (.vstr (joinSep (sortStr (distinctTrimmed ex "1" "Name")))) ∧
      Merger.mergedValAt ⟨ex.cols, ex.rows.reverse⟩ "1" "Name"
        = Merger.mergedValAt ex "1" "Name" := by
  have h := text_column_sorted_join ex "Name" "1" (by decide) (by decide) (by decide)
    (by decide) (by decide)
  exact ⟨h.1, h.2 ex.rows.reverse (List.reverse_perm ex.rows).symm⟩

/-- C6 (amended): the merged row count is at most the original row count
and equals the number of distinct *non-null* grouping-key values; every
row with a non-null key is represented in the output (its key appears
among the output rows), and the output's column set equals the input's
column set (rows whose key cell is null are dropped, so their data is
omitted — see the counterexample). -/
theorem row_count_invariant (t : Table) (hkey : "School No" ∈ t.cols) (o : MergedOut)
    (h : Merger.processFile t = .ok o) :
    o.nMerged ≤ o.nOrig ∧
      o.nMerged = (firstDedup (Merger.nonNullKeys t)).length ∧
      (∀ c, c ∈ o.cols ↔ c ∈ t.cols) ∧
      (∀ r ∈ t.rows, ∀ k : String, r.getD (Merger.keyIdx t) none = some k →
        k ∈ o.rows.map (fun x => x.1)) := by
  rw [processFile_ok hkey] at h
  have ho : o = ⟨Merger.outCols t, Merger.outRows t, t.rows.length,
      (Merger.outRows t).length⟩ := by
    injection h with h2
    exact h2.symm
  subst ho
  refine ⟨?_, ?_, ?_, ?_⟩
  · show (Merger.outRows t).length ≤ t.rows.length
    calc (Merger.outRows t).length
        = ((Merger.outRows t).map (fun r => r.1)).length := (List.length_map _ _).symm
      _ = (Merger.sortedKeys t).length := by rw [outKeys_eq]
      _ = (firstDedup (Merger.nonNullKeys t)).length := (sortStr_perm _).length_eq
      _ ≤ (Merger.nonNullKeys t).length := firstDedup_length_le _
      _ ≤ t.rows.length := List.length_filterMap_le _ _
  · show (Merger.outRows t).length = _
    calc (Merger.outRows t).length
        = ((Merger.outRows t).map (fun r => r.1)).length := (List.length_map _ _).symm
      _ = (Merger.sortedKeys t).length := by rw [outKeys_eq]
      _ = (firstDedup (Merger.nonNullKeys t)).length := (sortStr_perm _).length_eq
  · intro c
    show c ∈ Merger.outCols t ↔ c ∈ t.cols
    unfold Merger.outCols
    rw [ocolsE_map_snd]
    constructor
    · intro hc
      rcases List.mem_cons.mp hc with hc | hc
      · rw [hc]; exact hkey
      · exact (List.mem_filter.mp hc).1
    · intro hc
      by_cases hck : c = "School No"
      · rw [hck]; exact List.mem_cons_self _ _
      · exact List.mem_cons_of_mem _ (List.mem_filter.mpr ⟨hc, by simpa using hck⟩)
  · intro r hr k hcell
    show k ∈ (Merger.outRows t).map (fun x => x.1)
    rw [outKeys_eq]
    apply mem_sortedKeys.mpr
    exact List.mem_map.mpr ⟨r, hr, hcell⟩

/-- Witness for C6 at the table `t5` (two rows, two distinct keys). -/
theorem row_count_invariant_witness :
    (2 : ℕ) ≤ 2 ∧
      (2 : ℕ) = (firstDedup (Merger.nonNullKeys t5)).length ∧
      (∀ c, c ∈ (["School No"] : List String) ↔ c ∈ t5.cols) ∧
      (∀ r ∈ t5.rows, ∀ k : String, r.getD (Merger.keyIdx t5) none = some k →
        k ∈ ([("1", ([] : List (String × Value))), ("2", [])].map (fun x => x.1))) :=
  row_count_invariant t5 (by decide) ⟨["School No"], [("1", []), ("2", [])], 2, 2⟩ (by decide)

/-- C6 counterexample (to the claim as stated): in `t6` the second row
has a null key; the merged row count is 1 while the input has 2 distinct
grouping-key cells (one of them null), and the null-key row's data ("b")
appears nowhere in the output — an input row *is* omitted. -/
theorem row_count_counterexample :
    Merger.processFile t6
        = .ok ⟨["School No", "X"], [("1", [("X", .vstr "a")])], 2, 1⟩ ∧
      (firstDedup (Merger.keyCells t6)).length = 2 ∧
      ¬((1 : ℕ) = (firstDedup (Merger.keyCells t6)).length) := by
  decide

/-- C8: rows whose grouping-key cell is null are silently dropped: such a
row belongs to no group, the output has exactly one row per distinct
non-null key (keys pairwise distinct, and a key appears in the output iff
it appears non-null in the input), while the returned original row count
still counts the dropped rows. -/
theorem null_key_rows_dropped (t : Table) (o : MergedOut)
    (h : Merger.processFile t = .ok o) :
    (∀ r ∈ t.rows, r.getD (Merger.keyIdx t) none = none →
        ∀ k : String, r ∉ Merger.groupRows t k) ∧
      (∀ k : String, k ∈ o.rows.map (fun x => x.1) ↔ some k ∈ Merger.keyCells t) ∧
      (o.rows.map (fun x => x.1)).Nodup ∧
      o.nOrig = t.rows.length := by
  by_cases hkey : "School No" ∈ t.cols
  · rw [processFile_ok hkey] at h
    have ho : o = ⟨Merger.outCols t, Merger.outRows t, t.rows.length,
        (Merger.outRows t).length⟩ := by
      injection h with h2
      exact h2.symm
    subst ho
    refine ⟨?_, ?_, ?_, rfl⟩
    · intro r hr hnone k hmem
      unfold Merger.groupRows at hmem
      have hpred := (List.mem_filter.mp hmem).2
      rw [hnone] at hpred
      simp at hpred
    · intro k
      show k ∈ (Merger.outRows t).map (fun x => x.1) ↔ _
      rw [outKeys_eq]
      exact mem_sortedKeys
    · show ((Merger.outRows t).map (fun x => x.1)).Nodup
      rw [outKeys_eq]
      exact sortedKeys_nodup t
  · rw [processFile_error hkey] at h
    exact Except.noConfusion h

/-- Witness for C8 at the table `t6`: its null-key row is in no group,
the single output row is keyed "1", and the original count is still 2. -/
theorem null_key_rows_dropped_witness :
    (∀ r ∈ t6.rows, r.getD (Merger.keyIdx t6) none = none →
        ∀ k : String, r ∉ Merger.groupRows t6 k) ∧
      (∀ k : String,
        k ∈ ([("1", [("X", Value.vstr "a")])] : List (String × List (String × Value))).map
            (fun x => x.1)
          ↔ some k ∈ Merger.keyCells t6) ∧
      (([("1", [("X", Value.vstr "a")])] : List (String × List (String × Value))).map
          (fun x => x.1)).Nodup ∧
      (2 : ℕ) = t6.rows.length :=
  null_key_rows_dropped t6 ⟨["School No", "X"], [("1", [("X", Value.vstr "a")])], 2, 1⟩
    (by decide)

/-!
## Re-merging a merged table (claim C7)
-/

theorem remerge_num_cell {S : ℚ} (hS : 0 ≤ S) {col : String}
    (hsum : col ∈ Merger.SUM_COLUMNS) :
    Merger.roundVal (Merger.mergeCol col [serializeV (Value.vnum (round2 S))])
      = Value.vnum (round2 S) := by
  rw [show serializeV (Value.vnum (round2 S)) = some (showCents (round2 S)) from rfl,
    mergeCol_sum_eq hsum]
  have hsum1 : (([some (showCents (round2 S))] : List (Option String)).map
      Merger.clean_currency).sum = Merger.clean_currency (some (showCents (round2 S))) := by
    simp
  rw [hsum1]
  have hk : round2 S = ((roundHalfEven (S * 100)).toNat : ℚ) / 100 := round2_as_cents hS
  rw [hk, clean_currency_showCents]
  rw [show Merger.roundVal (Value.vnum (((roundHalfEven (S * 100)).toNat : ℚ) / 100))
      = Value.vnum (round2 (((roundHalfEven (S * 100)).toNat : ℚ) / 100)) from rfl,
    ← hk, round2_idem]

theorem remerge_text_cell {s : String} (hst : pyStrip s = s) {col : String}
    (hns : col ∉ Merger.SUM_COLUMNS) (hnk : col ≠ "School No") :
    Merger.mergeCol col [serializeV (Value.vstr s)] = Value.vstr s := by
  by_cases he : s = ""
  · subst he
    rw [show serializeV (Value.vstr "") = none from rfl, mergeCol_text_eq hns hnk]
    decide
  · rw [show serializeV (Value.vstr s) = some s by simp [serializeV, he],
      mergeCol_text_eq hns hnk]
    have hv : firstDedup (([some s] : List (Option String)).filterMap id) = [s] := by
      simp [firstDedup]
    rw [hv, if_pos (by simp : ([s] : List String).length = 1)]
    show Value.vstr (pyStrip s) = Value.vstr s
    rw [hst]

theorem drop_succ_eq_tail_drop {α : Type} :
    ∀ (l : List α) (n : ℕ), l.drop (n + 1) = (l.drop n).tail
  | [], _ => by simp
  | a :: t, 0 => rfl
  | a :: t, n + 1 => by
    rw [List.drop_succ_cons, List.drop_succ_cons, drop_succ_eq_tail_drop t n]

theorem remerge_row :
    ∀ (R : List (String × Value)) (n : ℕ) (row' : List (Option String)),
      row'.drop n = R.map (fun v => serializeV v.2) →
      (∀ v ∈ R, (v.1 ∈ Merger.SUM_COLUMNS →
          Merger.roundVal (Merger.mergeCol v.1 [serializeV v.2]) = v.2) ∧
        (v.1 ∉ Merger.SUM_COLUMNS → Merger.mergeCol v.1 [serializeV v.2] = v.2)) →
      ((List.enumFrom n (R.map (fun v => v.1))).map (fun p =>
        (p.2, if p.2 ∈ Merger.SUM_COLUMNS
              then Merger.roundVal (Merger.mergeCol p.2 [row'.getD p.1 none])
              else Merger.mergeCol p.2 [row'.getD p.1 none]))) = R
  | [], _, _, _, _ => rfl
  | v :: R', n, row', hdrop, hcell => by
    rw [List.map_cons,
      show List.enumFrom n (v.1 :: R'.map (fun w => w.1))
        = (n, v.1) :: List.enumFrom (n + 1) (R'.map (fun w => w.1)) from rfl,
      List.map_cons]
    have hget : row'.getD n none = serializeV v.2 := by
      rw [getD_drop, hdrop]
      rfl
    have hdrop' : row'.drop (n + 1) = R'.map (fun w => serializeV w.2) := by
      rw [drop_succ_eq_tail_drop, hdrop]
      rfl
    have htail := remerge_row R' (n + 1) row' hdrop'
      (fun w hw => hcell w (List.mem_cons_of_mem v hw))
    rw [htail]
    have hhead : ((n, v.1).2,
        if (n, v.1).2 ∈ Merger.SUM_COLUMNS
        then Merger.roundVal (Merger.mergeCol (n, v.1).2 [row'.getD (n, v.1).1 none])
        else Merger.mergeCol (n, v.1).2 [row'.getD (n, v.1).1 none]) = v := by
      dsimp only
      rw [hget]
      rcases hcell v (List.mem_cons_self v R') with ⟨h1, h2⟩
      by_cases hs : v.1 ∈ Merger.SUM_COLUMNS
      · rw [if_pos hs, h1 hs]
      · rw [if_neg hs, h2 hs]
    rw [hhead]

theorem keyIdx_tableOfMerged (t : Table) (n m : ℕ) :
    Merger.keyIdx (tableOfMerged ⟨Merger.outCols t, Merger.outRows t, n, m⟩) = 0 := by
  unfold Merger.keyIdx tableOfMerged Merger.outCols
  simp [List.findIdx_cons]

theorem ocolsE_tableOfMerged (t : Table) (n m : ℕ) :
    Merger.ocolsE (tableOfMerged ⟨Merger.outCols t, Merger.outRows t, n, m⟩)
      = List.enumFrom 1 ((Merger.ocolsE t).map (fun p => p.2)) := by
  unfold Merger.ocolsE tableOfMerged Merger.outCols
  rw [show ("School No" :: (Merger.ocolsE t).map (fun p => p.2)).enum
      = (0, "School No") :: List.enumFrom 1 ((Merger.ocolsE t).map (fun p => p.2)) from rfl,
    List.filter_cons_of_neg (by simp)]
  apply List.filter_eq_self.mpr
  intro p hp
  have hmem : p.2 ∈ (Merger.ocolsE t).map (fun q => q.2) := snd_mem_of_mem_enumFrom hp
  rcases List.mem_map.mp hmem with ⟨q, hq, he⟩
  have := ocolsE_snd_ne_key hq
  rw [he] at this
  simpa using this

theorem outCols_tableOfMerged (t : Table) (n m : ℕ) :
    Merger.outCols (tableOfMerged ⟨Merger.outCols t, Merger.outRows t, n, m⟩)
      = Merger.outCols t := by
  show "School No" ::
      (Merger.ocolsE (tableOfMerged ⟨Merger.outCols t, Merger.outRows t, n, m⟩)).map
        (fun p => p.2)
    = Merger.outCols t
  rw [ocolsE_tableOfMerged, enumFrom_map_snd]
  rfl

theorem outRows_map_fused (t : Table) :
    Merger.outRows t = (Merger.sortedKeys t).map
      (fun k => (k, Merger.roundPassRow (Merger.mergedRowFor t k))) := by
  unfold Merger.outRows Merger.rawRows
  rw [List.map_map]
  rfl

theorem sortedKeys_tableOfMerged (t : Table) (n m : ℕ) :
    Merger.sortedKeys (tableOfMerged ⟨Merger.outCols t, Merger.outRows t, n, m⟩)
      = Merger.sortedKeys t := by
  have hnn : Merger.nonNullKeys (tableOfMerged ⟨Merger.outCols t, Merger.outRows t, n, m⟩)
      = Merger.sortedKeys t := by
    unfold Merger.nonNullKeys
    rw [keyIdx_tableOfMerged]
    show ((Merger.outRows t).map
        (fun r => some r.1 :: r.2.map (fun p => serializeV p.2))).filterMap
          (fun r => r.getD 0 none) = _
    rw [List.filterMap_map]
    rw [show ((fun r : List (Option String) => r.getD 0 none)
        ∘ (fun r : String × List (String × Value) =>
            some r.1 :: r.2.map (fun p => serializeV p.2)))
      = fun r : String × List (String × Value) => some r.1 from rfl]
    rw [show (fun r : String × List (String × Value) => some r.1)
      = some ∘ (fun r : String × List (String × Value) => r.1) from rfl]
    rw [List.filterMap_eq_map, outKeys_eq]
  have hdef : Merger.sortedKeys (tableOfMerged ⟨Merger.outCols t, Merger.outRows t, n, m⟩)
      = sortStr (firstDedup (Merger.nonNullKeys
          (tableOfMerged ⟨Merger.outCols t, Merger.outRows t, n, m⟩))) := rfl
  rw [hdef, hnn, firstDedup_eq_self (sortedKeys_nodup t),
    sortStr_eq_self_of_sorted (sortedKeys_sorted t)]

theorem groupRows_tableOfMerged (t : Table) (n m : ℕ) {k : String}
    (hk : k ∈ Merger.sortedKeys t) :
    Merger.groupRows (tableOfMerged ⟨Merger.outCols t, Merger.outRows t, n, m⟩) k
      = [some k :: (Merger.roundPassRow (Merger.mergedRowFor t k)).map
          (fun p => serializeV p.2)] := by
  unfold Merger.groupRows
  rw [keyIdx_tableOfMerged]
  show (((Merger.outRows t).map
      (fun r => some r.1 :: r.2.map (fun p => serializeV p.2))).filter
        (fun r => r.getD 0 none == some k)) = _
  rw [outRows_map_fused, List.map_map]
  rw [show ((fun r : String × List (String × Value) =>
        some r.1 :: r.2.map (fun p => serializeV p.2))
      ∘ (fun k => (k, Merger.roundPassRow (Merger.mergedRowFor t k))))
    = fun k => some k :: (Merger.roundPassRow (Merger.mergedRowFor t k)).map
        (fun p => serializeV p.2) from rfl]
  exact filter_key_map_nodup
    (fun x => some x :: (Merger.roundPassRow (Merger.mergedRowFor t x)).map
      (fun p => serializeV p.2))
    (fun x => rfl) (sortedKeys_nodup t) hk

theorem roundPassRow_map_pairs (L : List (ℕ × String)) (g : ℕ × String → Value) :
    Merger.roundPassRow (L.map (fun p => (p.2, g p)))
      = L.map (fun p =>
          (p.2, if p.2 ∈ Merger.SUM_COLUMNS then Merger.roundVal (g p) else g p)) := by
  unfold Merger.roundPassRow
  rw [List.map_map]
  apply List.map_congr_left
  intro p _
  by_cases hs : p.2 ∈ Merger.SUM_COLUMNS
  · simp [Function.comp, hs]
  · simp [Function.comp, hs]

theorem mem_outRows_self {t : Table} {k : String} (hk : k ∈ Merger.sortedKeys t) :
    (k, Merger.roundPassRow (Merger.mergedRowFor t k)) ∈ Merger.outRows t := by
  rw [outRows_map_fused]
  exact List.mem_map.mpr ⟨k, hk, rfl⟩

theorem remerge_rowFor (t : Table) (n m : ℕ) {k : String} (hk : k ∈ Merger.sortedKeys t) :
    Merger.roundPassRow (Merger.mergedRowFor
        (tableOfMerged ⟨Merger.outCols t, Merger.outRows t, n, m⟩) k)
      = Merger.roundPassRow (Merger.mergedRowFor t k) := by
  have h1 : Merger.mergedRowFor (tableOfMerged ⟨Merger.outCols t, Merger.outRows t, n, m⟩) k
      = (List.enumFrom 1 ((Merger.ocolsE t).map (fun p => p.2))).map
          (fun p => (p.2, Merger.mergeCol p.2
            [(some k :: (Merger.roundPassRow (Merger.mergedRowFor t k)).map
                (fun q => serializeV q.2)).getD p.1 none])) := by
    show Merger.merge_group
        (Merger.ocolsE (tableOfMerged ⟨Merger.outCols t, Merger.outRows t, n, m⟩))
        (Merger.groupRows (tableOfMerged ⟨Merger.outCols t, Merger.outRows t, n, m⟩) k) = _
    rw [ocolsE_tableOfMerged, groupRows_tableOfMerged t n m hk]
    rfl
  rw [h1, roundPassRow_map_pairs]
  have hnames : (Merger.roundPassRow (Merger.mergedRowFor t k)).map (fun v => v.1)
      = (Merger.ocolsE t).map (fun p => p.2) := by
    rw [roundPass_merge_group, List.map_map]
    rfl
  rw [← hnames]
  apply remerge_row
  · rfl
  · intro v hv
    have hmem := mem_outRows_self hk
    have hveta : (v.1, v.2) ∈ Merger.roundPassRow (Merger.mergedRowFor t k) := hv
    have hspec := outRows_val_spec hmem hveta
    constructor
    · intro hs
      obtain ⟨S, hS, he⟩ := hspec.2.1 hs
      rw [he]
      exact remerge_num_cell hS hs
    · intro hs
      obtain ⟨s, he, hst⟩ := hspec.2.2 hs
      rw [he]
      exact remerge_text_cell hst hs hspec.1

theorem outRows_tableOfMerged (t : Table) (n m : ℕ) :
    Merger.outRows (tableOfMerged ⟨Merger.outCols t, Merger.outRows t, n, m⟩)
      = Merger.outRows t := by
  rw [outRows_map_fused (tableOfMerged ⟨Merger.outCols t, Merger.outRows t, n, m⟩),
    sortedKeys_tableOfMerged]
  conv_rhs => rw [outRows_map_fused t]
  apply List.map_congr_left
  intro k hk
  rw [remerge_rowFor t n m hk]

/-- C7: re-merging an already-merged table — the output of `process_file`
written to Excel and read back with `dtype=str` — yields the very same
merged table (with both returned counts now equal to the merged count),
and the 2-decimal rounding pass is idempotent: re-rounding already
rounded values changes nothing. -/
theorem merge_idempotent (t : Table) (o : MergedOut)
    (h : Merger.processFile t = .ok o) :
    Merger.processFile (tableOfMerged o) = .ok ⟨o.cols, o.rows, o.nMerged, o.nMerged⟩ ∧
      ∀ q : ℚ, round2 (round2 q) = round2 q := by
  refine ⟨?_, fun q => round2_idem q⟩
  by_cases hkey : "School No" ∈ t.cols
  · rw [processFile_ok hkey] at h
    have ho : o = ⟨Merger.outCols t, Merger.outRows t, t.rows.length,
        (Merger.outRows t).length⟩ := by
      injection h with h2
      exact h2.symm
    subst ho
    have hkey' : "School No" ∈ (tableOfMerged ⟨Merger.outCols t, Merger.outRows t,
        t.rows.length, (Merger.outRows t).length⟩).cols := by
      show "School No" ∈ Merger.outCols t
      exact List.mem_cons_self _ _
    rw [processFile_ok hkey']
    have hlen : (tableOfMerged ⟨Merger.outCols t, Merger.outRows t, t.rows.length,
        (Merger.outRows t).length⟩).rows.length = (Merger.outRows t).length := by
      show ((Merger.outRows t).map _).length = _
      exact List.length_map _ _
    rw [outCols_tableOfMerged, outRows_tableOfMerged, hlen]
  · rw [processFile_error hkey] at h
    exact Except.noConfusion h

/-- Witness for C7 at the table `t5`: re-merging its merged output
reproduces it, with both counts equal to 2. -/
theorem merge_idempotent_witness :
    Merger.processFile (tableOfMerged ⟨["School No"], [("1", []), ("2", [])], 2, 2⟩)
      = .ok ⟨["School No"], [("1", []), ("2", [])], 2, 2⟩ :=
  (merge_idempotent t5 ⟨["School No"], [("1", []), ("2", [])], 2, 2⟩ (by decide)).1
